import Mathlib

/-!
Shallow embedding of the bar-reconstruction engine of the `wrchart` repository
(`src/wrchart/transforms/renko.py` and `src/wrchart/transforms/range_bar.py`).

Prices and times are modelled as exact rationals.  Python's `round` (banker's
rounding, half to even) is `pyRound`; Python's `int` (truncation toward zero)
is `pyInt`.  The inner `while` loop of `to_range_bars` is modelled with an
explicit fuel parameter: `none` means the loop has not finished within the
given fuel, so a run whose result is `none` for every fuel never terminates.
In `to_renko`, `none` models the Python `ZeroDivisionError` raised by
`round(current_price / brick_size)` when `brick_size = 0`; no other runtime
error is reachable in that function.
-/

/-- One output bar `{time, open, high, low, close}`; the fields `op`, `hi`,
`lo`, `cl` stand for open, high, low and close (`open` is a Lean keyword). -/
structure Bar where
  time : ℚ
  op : ℚ
  hi : ℚ
  lo : ℚ
  cl : ℚ
deriving DecidableEq

/-- Python `int(q)`: truncation toward zero. -/
def pyInt (q : ℚ) : ℤ := if 0 ≤ q then ⌊q⌋ else ⌈q⌉

/-- Python `round(q)`: round half to even (banker's rounding); the half case
goes to the even neighbour, tested here via `⌊q⌋ % 2`. -/
def pyRound (q : ℚ) : ℤ :=
  if q - ⌊q⌋ < 1/2 then ⌊q⌋
  else if 1/2 < q - ⌊q⌋ then ⌊q⌋ + 1
  else if ⌊q⌋ % 2 = 0 then ⌊q⌋ else ⌊q⌋ + 1

/-- Python `max(xs)` for a non-empty list (the `[]` case is never used). -/
def listMax : List ℚ → ℚ
  | [] => 0
  | x :: xs => xs.foldl max x

/-- Python `min(xs)` for a non-empty list (the `[]` case is never used). -/
def listMin : List ℚ → ℚ
  | [] => 0
  | x :: xs => xs.foldl min x

/-- Mutable state of the `to_renko` scan: `base_price` (the anchor) and
`last_direction` (1 up, -1 down, 0 initial). -/
structure RenkoState where
  base_price : ℚ
  last_direction : ℤ
deriving DecidableEq

/-- `direction = 1 if price_diff > 0 else -1` (renko.py line 81). -/
def renkoDir (price_diff : ℚ) : ℤ := if 0 < price_diff then 1 else -1

/-- The `for _ in range(num_bricks)` emission loop of `to_renko`
(renko.py lines 89-104): emit `n` bricks, each with `open = base`,
`close = base + direction * brick_size`, `high`/`low` the max/min of the two,
advancing the anchor after each brick.  Returns the bricks and the final
anchor. -/
def emitBricks (t brick_size : ℚ) (direction : ℤ) : ℕ → ℚ → List Bar × ℚ
  | 0, base => ([], base)
  | n + 1, base =>
    (⟨t, base, max base (base + direction * brick_size),
       min base (base + direction * brick_size), base + direction * brick_size⟩ ::
       (emitBricks t brick_size direction n (base + direction * brick_size)).1,
     (emitBricks t brick_size direction n (base + direction * brick_size)).2)

/-- Body of the `for i, close in enumerate(closes)` loop of `to_renko`
(renko.py lines 75-104) for a single input point `(t, c)`: if
`abs(price_diff) >= brick_size`, compute `num_bricks` and `direction`, apply
the reversal rule (a reversal with `num_bricks < 2` emits nothing and leaves
the state unchanged; otherwise it costs one brick), then emit.
`last_direction` is assigned inside the emission loop, hence it only changes
when at least one brick is emitted. -/
def renkoStep (brick_size : ℚ) (s : RenkoState) (t c : ℚ) : RenkoState × List Bar :=
  if brick_size ≤ |c - s.base_price| then
    if s.last_direction ≠ 0 ∧ renkoDir (c - s.base_price) ≠ s.last_direction then
      if pyInt (|c - s.base_price| / brick_size) < 2 then (s, [])
      else
        (⟨(emitBricks t brick_size (renkoDir (c - s.base_price))
             (pyInt (|c - s.base_price| / brick_size) - 1).toNat s.base_price).2,
          renkoDir (c - s.base_price)⟩,
         (emitBricks t brick_size (renkoDir (c - s.base_price))
            (pyInt (|c - s.base_price| / brick_size) - 1).toNat s.base_price).1)
    else
      (⟨(emitBricks t brick_size (renkoDir (c - s.base_price))
           (pyInt (|c - s.base_price| / brick_size)).toNat s.base_price).2,
        if (pyInt (|c - s.base_price| / brick_size)).toNat = 0 then s.last_direction
        else renkoDir (c - s.base_price)⟩,
       (emitBricks t brick_size (renkoDir (c - s.base_price))
          (pyInt (|c - s.base_price| / brick_size)).toNat s.base_price).1)
  else (s, [])

/-- The full scan of `to_renko` over the input points, accumulating bricks. -/
def renkoScan (brick_size : ℚ) : RenkoState → List (ℚ × ℚ) → RenkoState × List Bar
  | s, [] => (s, [])
  | s, (t, c) :: rest =>
    ((renkoScan brick_size (renkoStep brick_size s t c).1 rest).1,
     (renkoStep brick_size s t c).2 ++
       (renkoScan brick_size (renkoStep brick_size s t c).1 rest).2)

/-- `to_renko` (renko.py lines 12-126) on a list of `(time, close)` points.
Empty input returns the empty series.  `brick_size = 0` raises
`ZeroDivisionError` in Python at `round(current_price / brick_size)`,
modelled as `none`.  The anchor is initialised by rounding `closes[0]` to the
nearest brick multiple; if the scan emits no brick the single synthetic
fallback brick is returned. -/
def to_renko (brick_size : ℚ) (pts : List (ℚ × ℚ)) : Option (List Bar) :=
  match pts with
  | [] => some []
  | (t0, c0) :: rest =>
    if brick_size = 0 then none
    else
      if (renkoScan brick_size ⟨(pyRound (c0 / brick_size) : ℚ) * brick_size, 0⟩
            ((t0, c0) :: rest)).2 = [] then
        some [⟨t0, c0, listMax (((t0, c0) :: rest).map Prod.snd),
               listMin (((t0, c0) :: rest).map Prod.snd),
               (((t0, c0) :: rest).map Prod.snd).getLastD 0⟩]
      else some (renkoScan brick_size ⟨(pyRound (c0 / brick_size) : ℚ) * brick_size, 0⟩
                   ((t0, c0) :: rest)).2

/-- Mutable state of the `to_range_bars` scan: `current_open`, `current_high`,
`current_low` and `bar_start_time` (range_bar.py lines 62-65). -/
structure RBState where
  current_open : ℚ
  current_high : ℚ
  current_low : ℚ
  bar_start_time : ℚ
deriving DecidableEq

/-- The bullish bar of range_bar.py lines 81-92:
`{time: bar_start, open, high, low: high - range_size, close: high}`. -/
def bullishBar (range_size : ℚ) (s : RBState) : Bar :=
  ⟨s.bar_start_time, s.current_open, s.current_high, s.current_high - range_size,
   s.current_high⟩

/-- The bearish bar of range_bar.py lines 98-109:
`{time: bar_start, open, high: low + range_size, low, close: low}`. -/
def bearishBar (range_size : ℚ) (s : RBState) : Bar :=
  ⟨s.bar_start_time, s.current_open, s.current_low + range_size, s.current_low,
   s.current_low⟩

/-- The tie-break bar of range_bar.py lines 114-125, identical in shape to the
bullish bar. -/
def tieBar (range_size : ℚ) (s : RBState) : Bar :=
  ⟨s.bar_start_time, s.current_open, s.current_high, s.current_high - range_size,
   s.current_high⟩

/-- Bar emitted by one iteration of the inner `while` loop of
`to_range_bars`, chosen by the branch conditions of range_bar.py
lines 81-125. -/
def rbEmit (range_size : ℚ) (s : RBState) : Bar :=
  if range_size ≤ s.current_high - s.current_open then bullishBar range_size s
  else if range_size ≤ s.current_open - s.current_low then bearishBar range_size s
  else tieBar range_size s

/-- New `current_open` after one iteration: the hit extreme (`current_high`
for the bullish and tie branches, `current_low` for the bearish branch). -/
def rbNewOpen (range_size : ℚ) (s : RBState) : ℚ :=
  if range_size ≤ s.current_high - s.current_open then s.current_high
  else if range_size ≤ s.current_open - s.current_low then s.current_low
  else s.current_high

/-- State after one iteration of the inner `while` loop: the branch resets
`current_open` (and `bar_start_time` to the current point's time), then
range_bar.py lines 130-132 recompute
`current_high = max(current_open, high)`, `current_low = min(current_open, low)`
from the current input point's `high`/`low`. -/
def rbReset (range_size h l t : ℚ) (s : RBState) : RBState :=
  ⟨rbNewOpen range_size s, max (rbNewOpen range_size s) h,
   min (rbNewOpen range_size s) l, t⟩

/-- The fueled inner `while current_high - current_low >= range_size` loop of
`to_range_bars` (range_bar.py lines 77-132) while processing the input point
`(t, h, l)`.  `none` means the loop did not exit within `fuel` iterations. -/
def rbLoop (range_size h l t : ℚ) : ℕ → RBState → Option (RBState × List Bar)
  | 0, s => if range_size ≤ s.current_high - s.current_low then none else some (s, [])
  | fuel + 1, s =>
    if range_size ≤ s.current_high - s.current_low then
      match rbLoop range_size h l t fuel (rbReset range_size h l t s) with
      | none => none
      | some (s2, bars) => some (s2, rbEmit range_size s :: bars)
    else some (s, [])

/-- The outer `for i in range(len(highs))` loop of `to_range_bars`
(range_bar.py lines 67-132): per point, update the accumulator with the
point's high/low, then run the inner loop. -/
def rbScan (range_size : ℚ) (fuel : ℕ) : RBState → List (ℚ × ℚ × ℚ) → Option (RBState × List Bar)
  | s, [] => some (s, [])
  | s, (t, h, l) :: rest =>
    match rbLoop range_size h l t fuel
        ⟨s.current_open, max s.current_high h, min s.current_low l, s.bar_start_time⟩ with
    | none => none
    | some (s2, bars1) =>
      match rbScan range_size fuel s2 rest with
      | none => none
      | some (s3, bars2) => some (s3, bars1 ++ bars2)

/-- `to_range_bars` (range_bar.py lines 12-159) on a list of
`(time, high, low)` points (only high/low drive bar formation).  The first
bar's open is seeded at `(high[0] + low[0]) / 2`; after the scan a final
partial bar is appended when `current_high > current_low`, and if no bar at
all was produced, the single degenerate bar built from the final accumulator
at `times[0]` is returned. -/
def to_range_bars (fuel : ℕ) (range_size : ℚ) (pts : List (ℚ × ℚ × ℚ)) : Option (List Bar) :=
  match pts with
  | [] => some []
  | (t0, h0, l0) :: rest =>
    match rbScan range_size fuel ⟨(h0 + l0) / 2, (h0 + l0) / 2, (h0 + l0) / 2, t0⟩
        ((t0, h0, l0) :: rest) with
    | none => none
    | some (s, emitted) =>
      if s.current_low < s.current_high then
        some (emitted ++ [⟨s.bar_start_time, s.current_open, s.current_high, s.current_low,
          (s.current_high + s.current_low) / 2⟩])
      else
        if emitted = [] then
          some [⟨t0, s.current_open, s.current_high, s.current_low,
            (s.current_high + s.current_low) / 2⟩]
        else some emitted

/-- The true-range column of `_calculate_atr_brick_size` (renko.py
lines 138-144), after the first row: previous close is available, so the row
value is `max(high - low, |high - prev_close|, |low - prev_close|)`. -/
def trueRangeAux (prev_close : ℚ) : List (ℚ × ℚ × ℚ) → List ℚ
  | [] => []
  | (h, l, c) :: rest =>
    max (h - l) (max |h - prev_close| |l - prev_close|) :: trueRangeAux c rest

/-- The true-range column on `(high, low, close)` rows.  At row 0 the shifted
close is null, so `|high - close.shift(1)|` and `|low - close.shift(1)|` are
null there, and `pl.max_horizontal` ignores nulls: row 0's true range is
`high[0] - low[0]`. -/
def trueRange : List (ℚ × ℚ × ℚ) → List ℚ
  | [] => []
  | (h, l, c) :: rest => (h - l) :: trueRangeAux c rest

/-- `rolling_mean(period)` in polars with the default
`min_periods = window_size`: entry `i` is the mean of the trailing `period`
values when `i + 1 ≥ period`, and null (`none`) before that. -/
def rollingMean (period : ℕ) (xs : List ℚ) : List (Option ℚ) :=
  (List.range xs.length).map fun i =>
    if period ≤ i + 1 then some (((xs.drop (i + 1 - period)).take period).sum / period)
    else none

/-- `Series.mean()` in polars: nulls are ignored; an all-null or empty series
has mean `None`. -/
def seriesMean (xs : List (Option ℚ)) : Option ℚ :=
  if (xs.filterMap id).length = 0 then none
  else some ((xs.filterMap id).sum / (xs.filterMap id).length)

/-- The value `_calculate_atr_brick_size` would return once its true-range
table exists: `atr if atr and atr > 0 else 1.0` (renko.py lines 146-149);
`None` and non-positive means both fall back to `1.0`. -/
def atrResult (rows : List (ℚ × ℚ × ℚ)) (period : ℕ) : ℚ :=
  match seriesMean (rollingMean period (trueRange rows)) with
  | none => 1
  | some a => if 0 < a then a else 1

/-- `_calculate_atr_brick_size` (renko.py lines 129-149) on `(high, low,
close)` rows.  Its first `df.select` builds three expression columns whose
output names are the left operands' column names: `high_col`, `high_col`,
`low_col`.  Polars rejects a `select` whose expressions produce duplicate
output names with a `DuplicateError`, and the first two names here always
coincide, so the call raises before computing anything; this is modelled by
checking `Nodup` on the output-name list exactly as polars does. -/
def calculate_atr_brick_size (high_col low_col : String) (rows : List (ℚ × ℚ × ℚ))
    (period : ℕ) : Except String ℚ :=
  if ([high_col, high_col, low_col] : List String).Nodup then
    Except.ok (atrResult rows period)
  else Except.error "duplicate column name"

/-- The list of complete trailing-`period` window means of the true-range
series: window `j` covers true-range indices `j .. j + period - 1`, and there
are `n + 1 - period` complete windows for `n` rows. -/
def windowMeans (period : ℕ) (rows : List (ℚ × ℚ × ℚ)) : List ℚ :=
  (List.range (rows.length + 1 - period)).map fun j =>
    (((trueRange rows).drop j).take period).sum / period

/-- Modelled from the spec (amended claim C6): the two-stage average written
as a single formula — if the series is shorter than `period` the fallback is
`1.0`; otherwise take the mean of the `n + 1 - period` trailing-`period`
window means of the true-range series, falling back to `1.0` when that value
is non-positive. -/
def atrSpec (rows : List (ℚ × ℚ × ℚ)) (period : ℕ) : ℚ :=
  if rows.length < period then 1
  else
    if 0 < (windowMeans period rows).sum / (windowMeans period rows).length then
      (windowMeans period rows).sum / (windowMeans period rows).length
    else 1

/-! ### Basic lemmas about the Python arithmetic helpers -/

lemma pyInt_natCast (m : ℕ) : pyInt (m : ℚ) = m := by
  unfold pyInt
  rw [if_pos (by positivity), Int.floor_natCast]

lemma pyInt_nonneg_eq_floor {q : ℚ} (h : 0 ≤ q) : pyInt q = ⌊q⌋ := by
  unfold pyInt
  rw [if_pos h]

lemma pyInt_nonpos {q : ℚ} (h : q ≤ 0) : pyInt q ≤ 0 := by
  unfold pyInt
  split_ifs with h0
  · exact Int.floor_nonpos h
  · exact Int.ceil_le.mpr (by exact_mod_cast h)

lemma pyRound_intCast (z : ℤ) : pyRound (z : ℚ) = z := by
  unfold pyRound
  rw [Int.floor_intCast]
  rw [if_pos]
  norm_num

lemma pyRound_zero : pyRound 0 = 0 := by
  have h := pyRound_intCast 0
  norm_num at h
  exact h

lemma pyRound_one : pyRound 1 = 1 := by
  have h := pyRound_intCast 1
  norm_num at h
  exact h

/-! ### Bounds for `listMax`, `listMin` and membership of `getLastD` -/

lemma le_foldl_max (xs : List ℚ) : ∀ a : ℚ, a ≤ xs.foldl max a := by
  induction xs with
  | nil => intro a; simp
  | cons x xs ih =>
    intro a
    calc a ≤ max a x := le_max_left a x
    _ ≤ xs.foldl max (max a x) := ih (max a x)

lemma mem_le_foldl_max (xs : List ℚ) : ∀ (a y : ℚ), y ∈ xs → y ≤ xs.foldl max a := by
  induction xs with
  | nil => intro a y hy; simp at hy
  | cons x xs ih =>
    intro a y hy
    rcases List.mem_cons.mp hy with h | h
    · subst h
      calc y ≤ max a y := le_max_right a y
      _ ≤ xs.foldl max (max a y) := le_foldl_max xs (max a y)
    · exact ih (max a x) y h

lemma le_listMax {y : ℚ} {l : List ℚ} (h : y ∈ l) : y ≤ listMax l := by
  cases l with
  | nil => simp at h
  | cons x xs =>
    unfold listMax
    rcases List.mem_cons.mp h with h | h
    · subst h; exact le_foldl_max xs y
    · exact mem_le_foldl_max xs x y h

lemma foldl_min_le (xs : List ℚ) : ∀ a : ℚ, xs.foldl min a ≤ a := by
  induction xs with
  | nil => intro a; simp
  | cons x xs ih =>
    intro a
    calc xs.foldl min (min a x) ≤ min a x := ih (min a x)
    _ ≤ a := min_le_left a x

lemma foldl_min_le_mem (xs : List ℚ) : ∀ (a y : ℚ), y ∈ xs → xs.foldl min a ≤ y := by
  induction xs with
  | nil => intro a y hy; simp at hy
  | cons x xs ih =>
    intro a y hy
    rcases List.mem_cons.mp hy with h | h
    · subst h
      calc xs.foldl min (min a y) ≤ min a y := foldl_min_le xs (min a y)
      _ ≤ y := min_le_right a y
    · exact ih (min a x) y h

lemma listMin_le {y : ℚ} {l : List ℚ} (h : y ∈ l) : listMin l ≤ y := by
  cases l with
  | nil => simp at h
  | cons x xs =>
    unfold listMin
    rcases List.mem_cons.mp h with h | h
    · subst h; exact foldl_min_le xs y
    · exact foldl_min_le_mem xs x y h

lemma getLastD_mem : ∀ (xs : List ℚ) (x d : ℚ), (x :: xs).getLastD d ∈ x :: xs := by
  intro xs
  induction xs with
  | nil => intro x d; simp
  | cons y ys ih =>
    intro x d
    rw [List.getLastD_cons]
    exact List.mem_cons_of_mem x (ih y x)

/-! ### Lemmas about the renko emission loop -/

lemma emitBricks_snd (t brick_size : ℚ) (direction : ℤ) :
    ∀ (n : ℕ) (base : ℚ),
      (emitBricks t brick_size direction n base).2 = base + n * direction * brick_size := by
  intro n
  induction n with
  | zero => intro base; simp [emitBricks]
  | succ n ih =>
    intro base
    rw [emitBricks, ih]
    push_cast
    ring

lemma emitBricks_wf (t brick_size : ℚ) (direction : ℤ) :
    ∀ (n : ℕ) (base : ℚ), ∀ b ∈ (emitBricks t brick_size direction n base).1,
      b.lo ≤ b.op ∧ b.op ≤ b.hi ∧ b.lo ≤ b.cl ∧ b.cl ≤ b.hi := by
  intro n
  induction n with
  | zero => intro base b hb; simp [emitBricks] at hb
  | succ n ih =>
    intro base b hb
    rw [emitBricks] at hb
    rcases List.mem_cons.mp hb with h | h
    · subst h
      refine ⟨min_le_left _ _, le_max_left _ _, min_le_right _ _, le_max_right _ _⟩
    · exact ih _ b h

/-- An upward brick opening at `a`: `{time, open: a, high: a + brick_size,
low: a, close: a + brick_size}`. -/
def upBrickFrom (t brick_size a : ℚ) : Bar := ⟨t, a, a + brick_size, a, a + brick_size⟩

/-- `k` consecutive upward bricks starting from anchor `base`. -/
def riseBricks (t brick_size base : ℚ) (k : ℕ) : List Bar :=
  (List.range k).map fun i : ℕ => upBrickFrom t brick_size (base + (i : ℚ) * brick_size)

lemma riseBricks_length (t brick_size base : ℚ) (k : ℕ) :
    (riseBricks t brick_size base k).length = k := by
  unfold riseBricks
  rw [List.length_map, List.length_range]

lemma riseBricks_ne_nil (t brick_size base : ℚ) {k : ℕ} (hk : 1 ≤ k) :
    riseBricks t brick_size base k ≠ [] := by
  intro h
  have hl := riseBricks_length t brick_size base k
  rw [h] at hl
  simp at hl
  omega

lemma riseBricks_succ (t brick_size base : ℚ) (m : ℕ) :
    riseBricks t brick_size base (m + 1) =
      upBrickFrom t brick_size base :: riseBricks t brick_size (base + brick_size) m := by
  unfold riseBricks
  rw [List.range_succ_eq_map, List.map_cons, List.map_map]
  congr 1
  · norm_num
  · apply List.map_congr_left
    intro i _
    simp only [Function.comp_apply]
    congr 1
    push_cast
    ring

lemma emitBricks_up {brick_size : ℚ} (hbs : 0 < brick_size) (t : ℚ) :
    ∀ (m : ℕ) (base : ℚ),
      emitBricks t brick_size 1 m base = (riseBricks t brick_size base m, base + m * brick_size) := by
  intro m
  induction m with
  | zero => intro base; simp [emitBricks, riseBricks]
  | succ m ih =>
    intro base
    rw [emitBricks, ih]
    rw [riseBricks_succ]
    have h1 : ((1 : ℤ) : ℚ) * brick_size = brick_size := by norm_num
    rw [h1]
    have h2 : max base (base + brick_size) = base + brick_size :=
      max_eq_right (by linarith)
    have h3 : min base (base + brick_size) = base :=
      min_eq_left (by linarith)
    rw [h2, h3]
    refine Prod.ext ?_ ?_
    · rfl
    · show base + brick_size + (m : ℚ) * brick_size = base + ((m : ℕ) + 1 : ℕ) * brick_size
      push_cast
      ring

/-! ### Lemmas about `renkoStep` and `renkoScan` -/

lemma renkoStep_small {brick_size c : ℚ} {s : RenkoState} (t : ℚ)
    (h : |c - s.base_price| < brick_size) : renkoStep brick_size s t c = (s, []) := by
  unfold renkoStep
  rw [if_neg (not_le.mpr h)]

lemma renkoStep_neg {brick_size : ℚ} (hbs : brick_size < 0) (s : RenkoState) (t c : ℚ) :
    renkoStep brick_size s t c = (s, []) := by
  unfold renkoStep
  have hq : |c - s.base_price| / brick_size ≤ 0 :=
    div_nonpos_of_nonneg_of_nonpos (abs_nonneg _) hbs.le
  have hn : pyInt (|c - s.base_price| / brick_size) ≤ 0 := pyInt_nonpos hq
  rw [if_pos (le_trans hbs.le (abs_nonneg _))]
  split_ifs with hrev hlt h0
  · rfl
  · omega
  · rw [Int.toNat_of_nonpos hn]
    simp [emitBricks]
  · exact absurd (Int.toNat_of_nonpos hn) h0

lemma renkoScan_neg {brick_size : ℚ} (hbs : brick_size < 0) :
    ∀ (pts : List (ℚ × ℚ)) (s : RenkoState), renkoScan brick_size s pts = (s, []) := by
  intro pts
  induction pts with
  | nil => intro s; rfl
  | cons p rest ih =>
    intro s
    obtain ⟨t, c⟩ := p
    rw [renkoScan, renkoStep_neg hbs, ih]
    rfl

lemma renkoStep_rise {brick_size : ℚ} (hbs : 0 < brick_size) (base t : ℚ) (d0 : ℤ)
    (hd : d0 = 0 ∨ d0 = 1) {m : ℕ} (hm : 1 ≤ m) :
    renkoStep brick_size ⟨base, d0⟩ t (base + (m : ℚ) * brick_size) =
      (⟨base + (m : ℚ) * brick_size, 1⟩, riseBricks t brick_size base m) := by
  have hm1 : (1 : ℚ) ≤ (m : ℚ) := by exact_mod_cast hm
  have hdiff : base + (m : ℚ) * brick_size - base = (m : ℚ) * brick_size := by ring
  have hpos : (0 : ℚ) < (m : ℚ) * brick_size := by
    apply mul_pos _ hbs
    linarith
  have habs : |(m : ℚ) * brick_size| = (m : ℚ) * brick_size := abs_of_pos hpos
  have hdir : renkoDir ((m : ℚ) * brick_size) = 1 := by
    unfold renkoDir
    rw [if_pos hpos]
  have hnum : pyInt ((m : ℚ) * brick_size / brick_size) = (m : ℤ) := by
    rw [mul_div_cancel_right₀ _ hbs.ne']
    have hc : ((m : ℕ) : ℚ) = (((m : ℤ) : ℚ)) := by push_cast; ring
    rw [hc]
    unfold pyInt
    rw [if_pos (by positivity), Int.floor_intCast]
  have htn : ((m : ℤ)).toNat = m := Int.toNat_natCast m
  unfold renkoStep
  simp only [hdiff, habs, hdir, hnum, htn]
  rw [if_pos (by nlinarith)]
  rw [if_neg (by rcases hd with h | h <;> subst h <;> simp)]
  rw [emitBricks_up hbs]
  rw [if_neg (by omega)]

lemma renkoStep_reversal2 {brick_size : ℚ} (hbs : 0 < brick_size) (anchor t : ℚ) :
    renkoStep brick_size ⟨anchor, 1⟩ t (anchor - 2 * brick_size) =
      (⟨anchor - brick_size, -1⟩,
       [⟨t, anchor, anchor, anchor - brick_size, anchor - brick_size⟩]) := by
  have hdiff : anchor - 2 * brick_size - anchor = -(2 * brick_size) := by ring
  have habs : |(-(2 * brick_size) : ℚ)| = 2 * brick_size := by
    rw [abs_neg, abs_of_pos (by linarith)]
  have hdir : renkoDir (-(2 * brick_size)) = -1 := by
    unfold renkoDir
    rw [if_neg (by push_neg; linarith)]
  have hnum : pyInt (2 * brick_size / brick_size) = 2 := by
    rw [mul_div_assoc, div_self hbs.ne', mul_one]
    norm_num [pyInt]
  have h1 : ((2 : ℤ) - 1).toNat = 1 := by norm_num
  unfold renkoStep
  simp only [hdiff, habs, hdir, hnum, h1]
  rw [if_pos (by linarith)]
  rw [if_pos (by norm_num)]
  rw [if_neg (by norm_num)]
  simp only [emitBricks]
  have hcast : ((-1 : ℤ) : ℚ) * brick_size = -brick_size := by push_cast; ring
  simp only [hcast, ← sub_eq_add_neg]
  rw [max_eq_left (by linarith), min_eq_right (by linarith)]

lemma renkoScan_ascending {brick_size : ℚ} (hbs : 0 < brick_size) (t : ℚ) :
    ∀ (m : ℕ) (base : ℚ) (d0 : ℤ), (d0 = 0 ∨ d0 = 1) →
      renkoScan brick_size ⟨base, d0⟩
          ((List.range m).map fun i : ℕ => (t, base + ((i : ℚ) + 1) * brick_size)) =
        (⟨base + (m : ℚ) * brick_size, if m = 0 then d0 else 1⟩,
         riseBricks t brick_size base m) := by
  intro m
  induction m with
  | zero =>
    intro base d0 hd
    norm_num [renkoScan, riseBricks]
  | succ m ih =>
    intro base d0 hd
    have hlist : (List.range (m + 1)).map
          (fun i : ℕ => (t, base + ((i : ℚ) + 1) * brick_size)) =
        (t, base + ((1 : ℕ) : ℚ) * brick_size) ::
          (List.range m).map
            (fun i : ℕ => (t, (base + brick_size) + ((i : ℚ) + 1) * brick_size)) := by
      rw [List.range_succ_eq_map, List.map_cons, List.map_map]
      congr 1
      · norm_num
      · apply List.map_congr_left
        intro i _
        simp only [Function.comp_apply, Prod.mk.injEq, true_and]
        push_cast
        ring
    rw [hlist, renkoScan, renkoStep_rise hbs base t d0 hd (le_refl 1)]
    have hstate : (⟨base + ((1 : ℕ) : ℚ) * brick_size, 1⟩ : RenkoState) =
        ⟨base + brick_size, (1 : ℤ)⟩ := by norm_num
    rw [hstate, ih (base + brick_size) 1 (Or.inr rfl)]
    refine Prod.ext ?_ ?_
    · show (⟨base + brick_size + (m : ℚ) * brick_size, if m = 0 then (1 : ℤ) else 1⟩ : RenkoState) =
        ⟨base + ((m + 1 : ℕ) : ℚ) * brick_size, if m + 1 = 0 then d0 else 1⟩
      rw [RenkoState.mk.injEq]
      constructor
      · push_cast
        ring
      · simp
    · show riseBricks t brick_size base 1 ++ riseBricks t brick_size (base + brick_size) m =
        riseBricks t brick_size base (m + 1)
      rw [riseBricks_succ t brick_size base m]
      have h1 : riseBricks t brick_size base 1 = [upBrickFrom t brick_size base] := by
        unfold riseBricks
        rw [show List.range 1 = [0] from rfl]
        simp
      rw [h1, List.singleton_append]

lemma renkoScan_rise {brick_size : ℚ} (hbs : 0 < brick_size) {k : ℕ} (hk : 1 ≤ k)
    (t0 t1 : ℚ) (rest : List (ℚ × ℚ)) :
    renkoScan brick_size ⟨0, 0⟩ ((t0, 0) :: (t1, (k : ℚ) * brick_size) :: rest) =
      ((renkoScan brick_size ⟨(k : ℚ) * brick_size, 1⟩ rest).1,
       riseBricks t1 brick_size 0 k ++
         (renkoScan brick_size ⟨(k : ℚ) * brick_size, 1⟩ rest).2) := by
  have hstep1 : renkoStep brick_size ⟨0, 0⟩ t0 0 = (⟨0, 0⟩, []) := by
    apply renkoStep_small
    simpa using hbs
  have hstep2 : renkoStep brick_size ⟨0, 0⟩ t1 ((k : ℚ) * brick_size) =
      (⟨(k : ℚ) * brick_size, 1⟩, riseBricks t1 brick_size 0 k) := by
    have h := renkoStep_rise hbs 0 t1 0 (Or.inl rfl) hk
    rw [zero_add] at h
    exact h
  rw [renkoScan, hstep1, renkoScan, hstep2]
  rfl

lemma renkoStep_wf (brick_size t c : ℚ) (s : RenkoState) :
    ∀ b ∈ (renkoStep brick_size s t c).2,
      b.lo ≤ b.op ∧ b.op ≤ b.hi ∧ b.lo ≤ b.cl ∧ b.cl ≤ b.hi := by
  intro b hb
  unfold renkoStep at hb
  split_ifs at hb
  all_goals first
    | exact emitBricks_wf _ _ _ _ _ b hb
    | simp at hb

lemma renkoScan_wf (brick_size : ℚ) :
    ∀ (pts : List (ℚ × ℚ)) (s : RenkoState), ∀ b ∈ (renkoScan brick_size s pts).2,
      b.lo ≤ b.op ∧ b.op ≤ b.hi ∧ b.lo ≤ b.cl ∧ b.cl ≤ b.hi := by
  intro pts
  induction pts with
  | nil => intro s b hb; simp [renkoScan] at hb
  | cons p rest ih =>
    intro s b hb
    obtain ⟨t, c⟩ := p
    rw [renkoScan] at hb
    rcases List.mem_append.mp hb with h | h
    · exact renkoStep_wf _ _ _ _ b h
    · exact ih _ b h

/-! ### Lemmas about the range-bar inner loop and scan -/

lemma rbLoop_no_bars (range_size h l t : ℚ) :
    ∀ (fuel : ℕ) (s s2 : RBState),
      rbLoop range_size h l t fuel s = some (s2, []) → s2 = s := by
  intro fuel
  cases fuel with
  | zero =>
    intro s s2 hs
    rw [rbLoop] at hs
    split_ifs at hs
    exact (Prod.mk.injEq _ _ _ _ ▸ (Option.some.inj hs)).1.symm
  | succ fuel =>
    intro s s2 hs
    rw [rbLoop] at hs
    split_ifs at hs
    · cases hrec : rbLoop range_size h l t fuel (rbReset range_size h l t s) with
      | none => rw [hrec] at hs; simp at hs
      | some p =>
        rw [hrec] at hs
        obtain ⟨s3, bars⟩ := p
        simp at hs
    · exact (Prod.mk.injEq _ _ _ _ ▸ (Option.some.inj hs)).1.symm

lemma rbScan_no_bars (range_size : ℚ) (fuel : ℕ) :
    ∀ (pts : List (ℚ × ℚ × ℚ)) (s s2 : RBState),
      rbScan range_size fuel s pts = some (s2, []) →
        s2.current_open = s.current_open ∧ s2.bar_start_time = s.bar_start_time ∧
        s.current_high ≤ s2.current_high ∧ s2.current_low ≤ s.current_low := by
  intro pts
  induction pts with
  | nil =>
    intro s s2 hs
    rw [rbScan] at hs
    obtain ⟨h1, h2⟩ := Prod.mk.injEq _ _ _ _ ▸ Option.some.inj hs
    subst h1
    exact ⟨rfl, rfl, le_refl _, le_refl _⟩
  | cons p rest ih =>
    intro s s2 hs
    obtain ⟨t, hh, ll⟩ := p
    rw [rbScan] at hs
    cases hl : rbLoop range_size hh ll t fuel
        ⟨s.current_open, max s.current_high hh, min s.current_low ll, s.bar_start_time⟩ with
    | none => rw [hl] at hs; simp at hs
    | some p1 =>
      rw [hl] at hs
      obtain ⟨s1, bars1⟩ := p1
      dsimp only at hs
      cases hr : rbScan range_size fuel s1 rest with
      | none => rw [hr] at hs; simp at hs
      | some p2 =>
        rw [hr] at hs
        obtain ⟨s3, bars2⟩ := p2
        simp only [Option.some.injEq, Prod.mk.injEq] at hs
        obtain ⟨hs3, hbars⟩ := hs
        rcases List.append_eq_nil.mp hbars with ⟨hb1, hb2⟩
        subst hb1
        have h1 := rbLoop_no_bars range_size hh ll t fuel _ _ hl
        subst hb2
        have h2 := ih s1 s3 hr
        rw [h1] at h2
        rw [← hs3]
        exact ⟨h2.1, h2.2.1, le_trans (le_max_left _ _) h2.2.2.1,
          le_trans h2.2.2.2 (min_le_left _ _)⟩

lemma rbEmit_height (range_size : ℚ) (s : RBState) :
    (rbEmit range_size s).hi - (rbEmit range_size s).lo = range_size := by
  unfold rbEmit bullishBar bearishBar tieBar
  split_ifs <;> (show _ - _ = range_size) <;> ring

lemma rbLoop_height (range_size h l t : ℚ) :
    ∀ (fuel : ℕ) (s s2 : RBState) (bars : List Bar),
      rbLoop range_size h l t fuel s = some (s2, bars) →
        ∀ b ∈ bars, b.hi - b.lo = range_size := by
  intro fuel
  induction fuel with
  | zero =>
    intro s s2 bars hs b hb
    rw [rbLoop] at hs
    split_ifs at hs
    obtain ⟨h1, h2⟩ := Prod.mk.injEq _ _ _ _ ▸ Option.some.inj hs
    rw [← h2] at hb
    simp at hb
  | succ fuel ih =>
    intro s s2 bars hs b hb
    rw [rbLoop] at hs
    split_ifs at hs
    · cases hrec : rbLoop range_size h l t fuel (rbReset range_size h l t s) with
      | none => rw [hrec] at hs; simp at hs
      | some p =>
        rw [hrec] at hs
        obtain ⟨s3, bars2⟩ := p
        simp only [Option.some.injEq, Prod.mk.injEq] at hs
        obtain ⟨hs3, hbars⟩ := hs
        rw [← hbars] at hb
        rcases List.mem_cons.mp hb with h1 | h1
        · subst h1
          exact rbEmit_height range_size s
        · exact ih _ _ _ hrec b h1
    · obtain ⟨h1, h2⟩ := Prod.mk.injEq _ _ _ _ ▸ Option.some.inj hs
      rw [← h2] at hb
      simp at hb

lemma rbScan_height (range_size : ℚ) (fuel : ℕ) :
    ∀ (pts : List (ℚ × ℚ × ℚ)) (s s2 : RBState) (bars : List Bar),
      rbScan range_size fuel s pts = some (s2, bars) →
        ∀ b ∈ bars, b.hi - b.lo = range_size := by
  intro pts
  induction pts with
  | nil =>
    intro s s2 bars hs b hb
    rw [rbScan] at hs
    obtain ⟨h1, h2⟩ := Prod.mk.injEq _ _ _ _ ▸ Option.some.inj hs
    rw [← h2] at hb
    simp at hb
  | cons p rest ih =>
    intro s s2 bars hs b hb
    obtain ⟨t, hh, ll⟩ := p
    rw [rbScan] at hs
    cases hl : rbLoop range_size hh ll t fuel
        ⟨s.current_open, max s.current_high hh, min s.current_low ll, s.bar_start_time⟩ with
    | none => rw [hl] at hs; simp at hs
    | some p1 =>
      rw [hl] at hs
      obtain ⟨s1, bars1⟩ := p1
      dsimp only at hs
      cases hr : rbScan range_size fuel s1 rest with
      | none => rw [hr] at hs; simp at hs
      | some p2 =>
        rw [hr] at hs
        obtain ⟨s3, bars2⟩ := p2
        simp only [Option.some.injEq, Prod.mk.injEq] at hs
        obtain ⟨hs3, hbars⟩ := hs
        rw [← hbars] at hb
        rcases List.mem_append.mp hb with h1 | h1
        · exact rbLoop_height range_size hh ll t fuel _ _ _ hl b h1
        · exact ih s1 s3 bars2 hr b h1

lemma rbLoop_nonpos {range_size : ℚ} (hrs : range_size ≤ 0) (h l t : ℚ) :
    ∀ (fuel : ℕ) (s : RBState), s.current_open ≤ s.current_high →
      s.current_low ≤ s.current_open → rbLoop range_size h l t fuel s = none := by
  intro fuel
  induction fuel with
  | zero =>
    intro s h1 h2
    rw [rbLoop]
    rw [if_pos (by linarith)]
  | succ fuel ih =>
    intro s h1 h2
    rw [rbLoop]
    rw [if_pos (by linarith)]
    have hreset : rbLoop range_size h l t fuel (rbReset range_size h l t s) = none := by
      apply ih
      · exact le_max_left _ _
      · exact min_le_left _ _
    rw [hreset]

/-- The two-state cycle of the diverging inner loop on the single input point
`(t, h, l) = (0, 10, 0)` with `range_size = 3`: the state with
`current_open = 10` takes the bearish branch back to `current_open = 0`, which
takes the bullish branch back to `current_open = 10`, forever. -/
lemma rbLoop_cycle :
    ∀ n : ℕ, rbLoop 3 10 0 0 n ⟨10, 10, 0, 0⟩ = none ∧
      rbLoop 3 10 0 0 n ⟨0, 10, 0, 0⟩ = none := by
  intro n
  induction n with
  | zero =>
    constructor <;> (rw [rbLoop]; norm_num)
  | succ n ih =>
    constructor
    · have hreset : rbReset 3 10 0 0 ⟨10, 10, 0, 0⟩ = ⟨0, 10, 0, 0⟩ := by
        norm_num [rbReset, rbNewOpen]
      rw [rbLoop, hreset, ih.2]
      norm_num
    · have hreset : rbReset 3 10 0 0 ⟨0, 10, 0, 0⟩ = ⟨10, 10, 0, 0⟩ := by
        norm_num [rbReset, rbNewOpen]
      rw [rbLoop, hreset, ih.1]
      norm_num

/-! ### Lemmas about the volatility estimator -/

lemma trueRangeAux_length (rows : List (ℚ × ℚ × ℚ)) :
    ∀ prev : ℚ, (trueRangeAux prev rows).length = rows.length := by
  induction rows with
  | nil => intro prev; rfl
  | cons r rest ih =>
    intro prev
    obtain ⟨h, l, c⟩ := r
    rw [trueRangeAux, List.length_cons, List.length_cons, ih]

lemma trueRange_length (rows : List (ℚ × ℚ × ℚ)) :
    (trueRange rows).length = rows.length := by
  cases rows with
  | nil => rfl
  | cons r rest =>
    obtain ⟨h, l, c⟩ := r
    rw [trueRange, List.length_cons, List.length_cons, trueRangeAux_length]

lemma filterMap_ite_range {period : ℕ} (hp : 1 ≤ period) (g : ℕ → ℚ) :
    ∀ n : ℕ,
      (((List.range n).map fun i => if period ≤ i + 1 then some (g i) else none).filterMap id) =
        (List.range (n + 1 - period)).map fun j => g (j + period - 1) := by
  intro n
  induction n with
  | zero =>
    have h0 : 0 + 1 - period = 0 := by omega
    simp [h0]
  | succ n ih =>
    rw [List.range_succ, List.map_append, List.filterMap_append, ih]
    by_cases h : period ≤ n + 1
    · have h1 : n + 1 + 1 - period = (n + 1 - period) + 1 := by omega
      have harg : n + 1 - period + period - 1 = n := by omega
      rw [h1, List.range_succ, List.map_append]
      simp [h, harg]
    · have h1 : n + 1 + 1 - period = 0 := by omega
      have h2 : n + 1 - period = 0 := by omega
      simp [h, h1, h2]

lemma rollingMean_filterMap {period : ℕ} (hp : 1 ≤ period) (xs : List ℚ) :
    (rollingMean period xs).filterMap id =
      (List.range (xs.length + 1 - period)).map fun j =>
        ((xs.drop j).take period).sum / period := by
  unfold rollingMean
  rw [filterMap_ite_range hp (fun i => ((xs.drop (i + 1 - period)).take period).sum / period)
    xs.length]
  apply List.map_congr_left
  intro j _
  have harg : j + period - 1 + 1 - period = j := by omega
  rw [harg]

/-! ### Claim theorems -/

/-- Claim C1 (code_bug): the claim states that `to_range_bars` terminates for
every finite input and `range_size > 0`, including points whose own
`high - low` is at least `range_size`.  The code does not: on the single
input point `(time 0, high 10, low 0)` with `range_size = 3` the inner loop
alternates bullish and bearish emissions forever, because the post-emission
recompute `high = max(open, h)`, `low = min(open, l)` re-spans the point's
full high-low range.  The fueled model returns `none` for every fuel, i.e.
the loop never exits. -/
theorem C1_to_range_bars_nontermination :
    ∀ fuel : ℕ, to_range_bars fuel 3 [(0, 10, 0)] = none := by
  have h5 : ∀ n : ℕ, rbLoop 3 10 0 0 n ⟨5, 10, 0, 0⟩ = none := by
    intro n
    cases n with
    | zero => rw [rbLoop]; norm_num
    | succ n =>
      have hreset : rbReset 3 10 0 0 ⟨5, 10, 0, 0⟩ = ⟨10, 10, 0, 0⟩ := by
        norm_num [rbReset, rbNewOpen]
      rw [rbLoop, hreset, (rbLoop_cycle n).1]
      norm_num
  intro fuel
  have hseed : rbScan 3 fuel ⟨(10 + 0) / 2, (10 + 0) / 2, (10 + 0) / 2, 0⟩
      [((0 : ℚ), (10 : ℚ), (0 : ℚ))] = none := by
    rw [rbScan]
    norm_num
    rw [h5 fuel]
  simp only [to_range_bars]
  rw [hseed]

/-- Claim C2 counterexample: the claim states that `to_renko` with
`brick_size ≤ 0` is rejected immediately with a configuration error and no
output series is produced.  Instead, `to_renko` with `brick_size = -1` on the
single point `(0, 5)` performs its whole pass (emitting nothing, since
`int(abs(diff)/brick_size) ≤ 0` makes every `range()` empty) and returns the
synthetic fallback brick — an ordinary output series. -/
theorem C2_no_rejection_counterexample :
    to_renko (-1) [((0 : ℚ), (5 : ℚ))] = some [⟨0, 5, 5, 5, 5⟩] := by
  norm_num [to_renko, renkoScan, renkoStep, emitBricks, renkoDir, pyInt, pyRound,
    listMax, listMin]

/-- Claim C2 as amended: neither transform validates its size parameter.
`to_renko` with `brick_size < 0` runs to completion and returns the synthetic
fallback brick; with `brick_size = 0` it raises `ZeroDivisionError` (modelled
`none`) at the anchor rounding rather than a configuration error; and
`to_range_bars` with `range_size ≤ 0` never returns on non-empty input
(its inner loop condition `high - low ≥ range_size` is always true). -/
theorem C2_no_validation :
    (∀ (brick_size t0 c0 : ℚ) (rest : List (ℚ × ℚ)), brick_size < 0 →
       to_renko brick_size ((t0, c0) :: rest) =
         some [⟨t0, c0, listMax (((t0, c0) :: rest).map Prod.snd),
                listMin (((t0, c0) :: rest).map Prod.snd),
                (((t0, c0) :: rest).map Prod.snd).getLastD 0⟩]) ∧
    (∀ (t0 c0 : ℚ) (rest : List (ℚ × ℚ)), to_renko 0 ((t0, c0) :: rest) = none) ∧
    (∀ (range_size t0 h0 l0 : ℚ) (rest : List (ℚ × ℚ × ℚ)) (fuel : ℕ), range_size ≤ 0 →
       to_range_bars fuel range_size ((t0, h0, l0) :: rest) = none) := by
  refine ⟨?_, ?_, ?_⟩
  · intro brick_size t0 c0 rest hneg
    simp only [to_renko]
    rw [if_neg (ne_of_lt hneg), renkoScan_neg hneg]
    simp
  · intro t0 c0 rest
    simp [to_renko]
  · intro range_size t0 h0 l0 rest fuel hrs
    simp only [to_range_bars]
    rw [rbScan]
    dsimp only
    rw [rbLoop_nonpos hrs h0 l0 t0 fuel _ (le_max_left _ _) (min_le_left _ _)]

/-- Witness for the amended claim C2, at `brick_size = -1` and `0` on the
single close 5, and `range_size = -1` on the single point `(0, 5, 5)` with
fuel 7. -/
theorem C2_no_validation_witness :
    ((-1 : ℚ) < 0 ∧ to_renko (-1) [((0 : ℚ), (5 : ℚ))] =
       some [⟨0, 5, listMax ([((0 : ℚ), (5 : ℚ))].map Prod.snd),
              listMin ([((0 : ℚ), (5 : ℚ))].map Prod.snd),
              ([((0 : ℚ), (5 : ℚ))].map Prod.snd).getLastD 0⟩]) ∧
    to_renko 0 [((0 : ℚ), (5 : ℚ))] = none ∧
    ((-1 : ℚ) ≤ 0 ∧ to_range_bars 7 (-1) [((0 : ℚ), (5 : ℚ), (5 : ℚ))] = none) := by
  refine ⟨⟨by norm_num, C2_no_validation.1 (-1) 0 5 [] (by norm_num)⟩,
    C2_no_validation.2.1 0 5 [],
    ⟨by norm_num, C2_no_validation.2.2 (-1) 0 5 5 [] 7 (by norm_num)⟩⟩

/-- Claim C3 (confirmed): after a monotonic rise that has emitted `k` upward
bricks (anchor at `k * brick_size`, direction up), a final close exactly
`2 * brick_size` below the current anchor emits exactly one downward brick,
not two: the first conjunct is the general single-point fact (from any upward
state, a `2 * brick_size` opposite move yields exactly one brick, the
reversal consuming the other brick's worth of movement), and the second runs
`to_renko` end to end on such a series. -/
theorem C3_reversal_single_brick {brick_size : ℚ} (hbs : 0 < brick_size) {k : ℕ}
    (hk : 1 ≤ k) (t0 t1 t2 : ℚ) :
    (∀ anchor t : ℚ, renkoStep brick_size ⟨anchor, 1⟩ t (anchor - 2 * brick_size) =
       (⟨anchor - brick_size, -1⟩,
        [⟨t, anchor, anchor, anchor - brick_size, anchor - brick_size⟩])) ∧
    to_renko brick_size
        [(t0, 0), (t1, (k : ℚ) * brick_size), (t2, (k : ℚ) * brick_size - 2 * brick_size)] =
      some (riseBricks t1 brick_size 0 k ++
        [⟨t2, (k : ℚ) * brick_size, (k : ℚ) * brick_size,
          (k : ℚ) * brick_size - brick_size, (k : ℚ) * brick_size - brick_size⟩]) := by
  constructor
  · intro anchor t
    exact renkoStep_reversal2 hbs anchor t
  · have hinner : renkoScan brick_size ⟨(k : ℚ) * brick_size, 1⟩
        [(t2, (k : ℚ) * brick_size - 2 * brick_size)] =
        (⟨(k : ℚ) * brick_size - brick_size, -1⟩,
         [⟨t2, (k : ℚ) * brick_size, (k : ℚ) * brick_size,
           (k : ℚ) * brick_size - brick_size, (k : ℚ) * brick_size - brick_size⟩]) := by
      rw [renkoScan, renkoStep_reversal2 hbs ((k : ℚ) * brick_size) t2, renkoScan]
      rfl
    have hscan := renkoScan_rise hbs hk t0 t1
      [(t2, (k : ℚ) * brick_size - 2 * brick_size)]
    rw [hinner] at hscan
    simp only [to_renko]
    rw [if_neg hbs.ne']
    have hinit : (⟨((pyRound (0 / brick_size) : ℤ) : ℚ) * brick_size, 0⟩ : RenkoState) =
        ⟨0, 0⟩ := by
      rw [RenkoState.mk.injEq]
      constructor
      · rw [zero_div, pyRound_zero]
        norm_num
      · rfl
    rw [hinit, hscan]
    dsimp only
    rw [if_neg ?hne]
    case hne =>
      intro hcontra
      rcases List.append_eq_nil.mp hcontra with ⟨h1, h2⟩
      exact riseBricks_ne_nil t1 brick_size 0 hk h1

/-- Witness for claim C3 at `brick_size = 2`, `k = 1`: closes `0, 2, -2`
produce one up brick and then exactly one reversal brick. -/
theorem C3_reversal_single_brick_witness :
    renkoStep 2 ⟨5, 1⟩ 7 1 = (⟨3, -1⟩, [⟨7, 5, 5, 3, 3⟩]) ∧
    to_renko 2 [((0 : ℚ), 0), (1, 2), (2, -2)] =
      some [⟨1, 0, 2, 0, 2⟩, ⟨2, 2, 2, 0, 0⟩] := by
  have h := @C3_reversal_single_brick 2 (by norm_num) 1 (le_refl 1) 0 1 2
  constructor
  · have h1 := h.1 5 7
    norm_num at h1
    exact h1
  · have h2 := h.2
    have hrb : riseBricks 1 2 0 1 = [⟨1, 0, 2, 0, 2⟩] := by
      unfold riseBricks upBrickFrom
      rw [show List.range 1 = [0] from rfl]
      norm_num
    rw [hrb] at h2
    norm_num at h2
    exact h2

/-- After emitting `n` bricks in the direction of `c - base`, the distance
from `c` to the new anchor is `| |diff| - n * brick_size |`. -/
lemma residual_after_emit {brick_size : ℚ} (s : RenkoState) (t c : ℚ) (n : ℕ) :
    |c - (emitBricks t brick_size (renkoDir (c - s.base_price)) n s.base_price).2| =
      |(|c - s.base_price|) - (n : ℚ) * brick_size| := by
  rw [emitBricks_snd]
  rcases lt_trichotomy (c - s.base_price) 0 with h | h | h
  · have hd : renkoDir (c - s.base_price) = -1 := by
      unfold renkoDir
      rw [if_neg (by linarith)]
    rw [hd, abs_of_neg h]
    have heq : c - (s.base_price + (n : ℚ) * ((-1 : ℤ) : ℚ) * brick_size) =
        -(-(c - s.base_price) - (n : ℚ) * brick_size) := by push_cast; ring
    rw [heq, abs_neg]
  · have hd : renkoDir (c - s.base_price) = -1 := by
      unfold renkoDir
      rw [if_neg (by rw [h]; exact lt_irrefl 0)]
    rw [hd]
    have heq : c - (s.base_price + (n : ℚ) * ((-1 : ℤ) : ℚ) * brick_size) =
        (c - s.base_price) + (n : ℚ) * brick_size := by push_cast; ring
    rw [heq, h]
    simp [abs_neg]
  · have hd : renkoDir (c - s.base_price) = 1 := by
      unfold renkoDir
      rw [if_pos h]
    rw [hd, abs_of_pos h]
    congr 1
    push_cast
    ring

/-- Claim C4 counterexample: with `brick_size = 1` and closes `0, 2, -2`, the
scan over the first two points reaches anchor 2 with direction up; the third
close `-2` is a reversal that does emit bricks (three of them, so no early
exit), yet the residual `|c - anchor|` when the engine moves on is exactly 1,
which is not strictly less than `brick_size`. -/
theorem C4_residual_counterexample :
    (renkoScan 1 ⟨0, 0⟩ [((0 : ℚ), 0), (1, 2)]).1 = ⟨2, 1⟩ ∧
    (renkoStep 1 ⟨2, 1⟩ 2 (-2)).2.length = 3 ∧
    ¬ |(-2 : ℚ) - (renkoStep 1 ⟨2, 1⟩ 2 (-2)).1.base_price| < 1 := by
  refine ⟨?_, ?_, ?_⟩
  · norm_num [renkoScan, renkoStep, emitBricks, renkoDir, pyInt]
  · norm_num [renkoStep, emitBricks, renkoDir, pyInt]
  · have hbase : (renkoStep 1 ⟨2, 1⟩ 2 (-2)).1.base_price = -1 := by
      norm_num [renkoStep, emitBricks, renkoDir, pyInt]
    rw [hbase]
    norm_num

/-- Claim C4 as amended: for `brick_size > 0`, after a point that is not a
(non-skipped) reversal the residual `|c - anchor|` is strictly below
`brick_size`; but after a point that reverses direction with
`num_bricks ≥ 2`, the code emits `num_bricks - 1` bricks and the residual
lands in `[brick_size, 2 * brick_size)` — the claim's bound fails exactly on
reversal points. -/
theorem C4_residual_bounds {brick_size : ℚ} (hbs : 0 < brick_size)
    (s : RenkoState) (t c : ℚ) :
    (¬ (s.last_direction ≠ 0 ∧ renkoDir (c - s.base_price) ≠ s.last_direction) →
       |c - (renkoStep brick_size s t c).1.base_price| < brick_size) ∧
    ((s.last_direction ≠ 0 ∧ renkoDir (c - s.base_price) ≠ s.last_direction) →
     2 ≤ pyInt (|c - s.base_price| / brick_size) →
       brick_size ≤ |c - (renkoStep brick_size s t c).1.base_price| ∧
       |c - (renkoStep brick_size s t c).1.base_price| < 2 * brick_size) := by
  have hq0 : 0 ≤ |c - s.base_price| / brick_size := div_nonneg (abs_nonneg _) hbs.le
  have hpy : pyInt (|c - s.base_price| / brick_size) = ⌊|c - s.base_price| / brick_size⌋ :=
    pyInt_nonneg_eq_floor hq0
  have hlb : ((⌊|c - s.base_price| / brick_size⌋ : ℤ) : ℚ) * brick_size ≤ |c - s.base_price| := by
    have h1 := Int.floor_le (|c - s.base_price| / brick_size)
    calc ((⌊|c - s.base_price| / brick_size⌋ : ℤ) : ℚ) * brick_size
        ≤ (|c - s.base_price| / brick_size) * brick_size :=
          mul_le_mul_of_nonneg_right h1 hbs.le
    _ = |c - s.base_price| := by field_simp
  have hub : |c - s.base_price| < (((⌊|c - s.base_price| / brick_size⌋ : ℤ) : ℚ) + 1) * brick_size := by
    have h1 := Int.lt_floor_add_one (|c - s.base_price| / brick_size)
    calc |c - s.base_price| = (|c - s.base_price| / brick_size) * brick_size := by field_simp
    _ < (((⌊|c - s.base_price| / brick_size⌋ : ℤ) : ℚ) + 1) * brick_size :=
      mul_lt_mul_of_pos_right h1 hbs
  constructor
  · intro hrev
    by_cases hsmall : brick_size ≤ |c - s.base_price|
    · have hF1 : 1 ≤ ⌊|c - s.base_price| / brick_size⌋ := by
        apply Int.le_floor.mpr
        rw [show ((1 : ℤ) : ℚ) = 1 by norm_num, le_div_iff₀ hbs]
        linarith
      unfold renkoStep
      rw [if_pos hsmall, if_neg hrev]
      dsimp only
      rw [residual_after_emit s t c, hpy]
      have hcast : (((⌊|c - s.base_price| / brick_size⌋).toNat : ℕ) : ℚ) =
          ((⌊|c - s.base_price| / brick_size⌋ : ℤ) : ℚ) := by
        have h2 : ((⌊|c - s.base_price| / brick_size⌋).toNat : ℤ) =
            ⌊|c - s.base_price| / brick_size⌋ := Int.toNat_of_nonneg (by omega)
        exact_mod_cast congrArg (fun z : ℤ => (z : ℚ)) h2
      rw [hcast, abs_of_nonneg (by nlinarith)]
      nlinarith
    · rw [renkoStep_small t (not_le.mp hsmall)]
      exact not_le.mp hsmall
  · intro hrev hn2
    rw [hpy] at hn2
    have hge : brick_size ≤ |c - s.base_price| := by
      have h2 : (2 : ℚ) ≤ ((⌊|c - s.base_price| / brick_size⌋ : ℤ) : ℚ) := by
        exact_mod_cast hn2
      nlinarith
    unfold renkoStep
    rw [if_pos hge, if_pos hrev, if_neg (by rw [hpy]; omega)]
    dsimp only
    rw [residual_after_emit s t c, hpy]
    have hcast : (((⌊|c - s.base_price| / brick_size⌋ - 1).toNat : ℕ) : ℚ) =
        ((⌊|c - s.base_price| / brick_size⌋ : ℤ) : ℚ) - 1 := by
      have h2 : ((⌊|c - s.base_price| / brick_size⌋ - 1).toNat : ℤ) =
          ⌊|c - s.base_price| / brick_size⌋ - 1 := Int.toNat_of_nonneg (by omega)
      have h3 := congrArg (fun z : ℤ => (z : ℚ)) h2
      push_cast at h3
      exact_mod_cast h3
    have h2 : (2 : ℚ) ≤ ((⌊|c - s.base_price| / brick_size⌋ : ℤ) : ℚ) := by
      exact_mod_cast hn2
    rw [hcast, abs_of_nonneg (by nlinarith)]
    constructor
    · nlinarith
    · nlinarith

/-- Witness for the amended claim C4: a non-reversal point (`brick_size = 1`,
initial state, close `5/2`) leaves residual `1/2 < 1`, while the reversal
point of the counterexample run (anchor 2, direction up, close `-2`) leaves
residual exactly 1, inside `[1, 2)`. -/
theorem C4_residual_bounds_witness :
    (¬ ((⟨0, 0⟩ : RenkoState).last_direction ≠ 0 ∧
        renkoDir ((5/2 : ℚ) - (⟨0, 0⟩ : RenkoState).base_price) ≠
          (⟨0, 0⟩ : RenkoState).last_direction) ∧
     |(5/2 : ℚ) - (renkoStep 1 ⟨0, 0⟩ 0 (5/2)).1.base_price| < 1) ∧
    (((⟨2, 1⟩ : RenkoState).last_direction ≠ 0 ∧
      renkoDir ((-2 : ℚ) - (⟨2, 1⟩ : RenkoState).base_price) ≠
        (⟨2, 1⟩ : RenkoState).last_direction) ∧
     2 ≤ pyInt (|(-2 : ℚ) - (⟨2, 1⟩ : RenkoState).base_price| / 1) ∧
     1 ≤ |(-2 : ℚ) - (renkoStep 1 ⟨2, 1⟩ 2 (-2)).1.base_price| ∧
     |(-2 : ℚ) - (renkoStep 1 ⟨2, 1⟩ 2 (-2)).1.base_price| < 2 * 1) := by
  have hrev1 : ¬ ((⟨0, 0⟩ : RenkoState).last_direction ≠ 0 ∧
      renkoDir ((5/2 : ℚ) - (⟨0, 0⟩ : RenkoState).base_price) ≠
        (⟨0, 0⟩ : RenkoState).last_direction) := by simp
  have hrev2 : ((⟨2, 1⟩ : RenkoState).last_direction ≠ 0 ∧
      renkoDir ((-2 : ℚ) - (⟨2, 1⟩ : RenkoState).base_price) ≠
        (⟨2, 1⟩ : RenkoState).last_direction) := by
    constructor
    · norm_num
    · norm_num [renkoDir]
  have hn2 : 2 ≤ pyInt (|(-2 : ℚ) - (⟨2, 1⟩ : RenkoState).base_price| / 1) := by
    norm_num [pyInt]
  have hmain := (@C4_residual_bounds 1 (by norm_num) ⟨2, 1⟩ 2 (-2)).2 hrev2 hn2
  exact ⟨⟨hrev1, (@C4_residual_bounds 1 (by norm_num) ⟨0, 0⟩ 0 (5/2)).1 hrev1⟩,
    hrev2, hn2, hmain.1, hmain.2⟩

/-- Claim C5 counterexample: re-aggregating a Renko output with the same
`brick_size` is not the identity.  Closes `0, 2` with `brick_size = 1`
produce the two bricks `0→1→2`; feeding the output's `(time, close)` pairs
back into `to_renko` re-initialises the anchor at the first output close
(which lies on the brick grid), so the first row emits nothing and the
result has one brick instead of two. -/
theorem C5_reaggregation_counterexample :
    to_renko 1 [((0 : ℚ), 0), (1, 2)] = some [⟨1, 0, 1, 0, 1⟩, ⟨1, 1, 2, 1, 2⟩] ∧
    to_renko 1 ([(⟨1, 0, 1, 0, 1⟩ : Bar), ⟨1, 1, 2, 1, 2⟩].map fun b => (b.time, b.cl)) =
      some [⟨1, 1, 2, 1, 2⟩] ∧
    some [(⟨1, 1, 2, 1, 2⟩ : Bar)] ≠
      some [(⟨1, 0, 1, 0, 1⟩ : Bar), ⟨1, 1, 2, 1, 2⟩] := by
  refine ⟨?_, ?_, ?_⟩
  · norm_num [to_renko, renkoScan, renkoStep, emitBricks, renkoDir, pyInt, pyRound,
      listMax, listMin, List.cons_ne_nil]
  · norm_num [to_renko, renkoScan, renkoStep, emitBricks, renkoDir, pyInt, pyRound,
      listMax, listMin, List.cons_ne_nil]
  · simp

/-- Claim C5 as amended: re-aggregation of a Renko series is not idempotent;
for a monotonic rise of `k ≥ 2` bricks, applying `to_renko` with the same
`brick_size` to its own output yields the output minus its first brick (the
re-initialised anchor coincides with the first output close, so the first
row emits nothing), and that tail differs from the original series. -/
theorem C5_reaggregation_drops_first_brick {brick_size : ℚ} (hbs : 0 < brick_size)
    {k : ℕ} (hk : 2 ≤ k) (t0 t1 : ℚ) :
    to_renko brick_size [(t0, 0), (t1, (k : ℚ) * brick_size)] =
      some (riseBricks t1 brick_size 0 k) ∧
    to_renko brick_size ((riseBricks t1 brick_size 0 k).map fun b => (b.time, b.cl)) =
      some ((riseBricks t1 brick_size 0 k).drop 1) ∧
    (riseBricks t1 brick_size 0 k).drop 1 ≠ riseBricks t1 brick_size 0 k := by
  have hk1 : 1 ≤ k := by omega
  refine ⟨?_, ?_, ?_⟩
  · have hscan := renkoScan_rise hbs hk1 t0 t1 ([] : List (ℚ × ℚ))
    rw [show renkoScan brick_size ⟨(k : ℚ) * brick_size, 1⟩ ([] : List (ℚ × ℚ)) =
        (⟨(k : ℚ) * brick_size, 1⟩, ([] : List Bar)) from rfl] at hscan
    dsimp only at hscan
    rw [List.append_nil] at hscan
    simp only [to_renko]
    rw [if_neg hbs.ne']
    have hinit : (⟨((pyRound (0 / brick_size) : ℤ) : ℚ) * brick_size, 0⟩ : RenkoState) =
        ⟨0, 0⟩ := by
      rw [RenkoState.mk.injEq]
      refine ⟨?_, rfl⟩
      rw [zero_div, pyRound_zero]
      norm_num
    rw [hinit, hscan]
    dsimp only
    rw [if_neg (riseBricks_ne_nil t1 brick_size 0 hk1)]
  · obtain ⟨m, rfl⟩ : ∃ m, k = m + 1 := ⟨k - 1, by omega⟩
    have hm : 1 ≤ m := by omega
    rw [riseBricks_succ t1 brick_size 0 m, List.map_cons]
    dsimp only [upBrickFrom]
    rw [zero_add brick_size]
    have htail : (riseBricks t1 brick_size brick_size m).map (fun b => (b.time, b.cl)) =
        (List.range m).map fun i : ℕ => (t1, brick_size + ((i : ℚ) + 1) * brick_size) := by
      unfold riseBricks upBrickFrom
      rw [List.map_map]
      apply List.map_congr_left
      intro i _
      simp only [Function.comp_apply]
      refine Prod.ext rfl ?_
      show brick_size + (i : ℚ) * brick_size + brick_size =
        brick_size + ((i : ℚ) + 1) * brick_size
      ring
    rw [htail]
    simp only [to_renko]
    rw [if_neg hbs.ne']
    have hinit2 : (⟨((pyRound (brick_size / brick_size) : ℤ) : ℚ) * brick_size, 0⟩ :
        RenkoState) = ⟨brick_size, 0⟩ := by
      rw [RenkoState.mk.injEq]
      refine ⟨?_, rfl⟩
      rw [div_self hbs.ne', pyRound_one]
      norm_num
    rw [hinit2, renkoScan]
    have hstep : renkoStep brick_size ⟨brick_size, 0⟩ t1 brick_size = (⟨brick_size, 0⟩, []) := by
      apply renkoStep_small
      simpa using hbs
    rw [hstep]
    dsimp only
    rw [renkoScan_ascending hbs t1 m brick_size 0 (Or.inl rfl)]
    dsimp only [List.nil_append]
    rw [if_neg (riseBricks_ne_nil t1 brick_size brick_size hm)]
    rfl
  · intro heq
    have hlen := congrArg List.length heq
    rw [List.length_drop, riseBricks_length] at hlen
    omega

/-- Witness for the amended claim C5 at `brick_size = 1`, `k = 2`: the
two-brick rise re-aggregates to its tail. -/
theorem C5_reaggregation_drops_first_brick_witness :
    to_renko 1 [((0 : ℚ), 0), (1, 2)] = some [⟨1, 0, 1, 0, 1⟩, ⟨1, 1, 2, 1, 2⟩] ∧
    to_renko 1 [((1 : ℚ), 1), (1, 2)] = some [⟨1, 1, 2, 1, 2⟩] ∧
    [(⟨1, 1, 2, 1, 2⟩ : Bar)] ≠ [(⟨1, 0, 1, 0, 1⟩ : Bar), ⟨1, 1, 2, 1, 2⟩] := by
  have h := @C5_reaggregation_drops_first_brick 1 (by norm_num) 2 (le_refl 2) 0 1
  have hrb : riseBricks 1 1 0 2 = [⟨1, 0, 1, 0, 1⟩, ⟨1, 1, 2, 1, 2⟩] := by
    unfold riseBricks upBrickFrom
    rw [show List.range 2 = [0, 1] from rfl]
    norm_num
  obtain ⟨h1, h2, -⟩ := h
  rw [hrb] at h1 h2
  norm_num at h1 h2
  exact ⟨h1, h2, by simp⟩

/-- Claim C6 counterexample: the claim predicts that on a 2-row series with
`period = 2` (so `n < period + 1`) the adaptive brick size falls back to
`1.0`.  The function never gets that far: its first `select` gives two
true-range expressions the same output name (`high_col`), which polars
rejects with a `DuplicateError` — no brick size, `1.0` or otherwise, is ever
returned. -/
theorem C6_atr_counterexample :
    calculate_atr_brick_size "high" "low" [((3 : ℚ), 1, 2), (3, 1, 2)] 2 =
      Except.error "duplicate column name" ∧
    (Except.error "duplicate column name" : Except String ℚ) ≠ Except.ok 1 := by
  constructor
  · norm_num [calculate_atr_brick_size]
  · intro h
    exact Except.noConfusion h

/-- Claim C6 as amended: `_calculate_atr_brick_size` as written never returns
a value — its first `select` always fails with a duplicate-column-name error,
for every input and period, because the first two true-range expressions both
carry the high column's name.  Setting that error aside, the value its
expressions define is the mean of the trailing-`period` rolling means of a
true-range series whose index-0 entry is `high[0] - low[0]` (not undefined),
with fallback `1.0` when the series is shorter than `period` (not
`period + 1`) or the value is non-positive. -/
theorem C6_atr_amended :
    (∀ (high_col low_col : String) (rows : List (ℚ × ℚ × ℚ)) (period : ℕ),
       calculate_atr_brick_size high_col low_col rows period =
         Except.error "duplicate column name") ∧
    (∀ (rows : List (ℚ × ℚ × ℚ)) (period : ℕ), 1 ≤ period →
       atrResult rows period = atrSpec rows period) := by
  constructor
  · intro hc lc rows p
    unfold calculate_atr_brick_size
    rw [if_neg]
    intro hnd
    exact (List.nodup_cons.mp hnd).1 (List.mem_cons_self hc [lc])
  · intro rows p hp
    unfold atrResult seriesMean
    have hfm : (rollingMean p (trueRange rows)).filterMap id = windowMeans p rows := by
      rw [rollingMean_filterMap hp (trueRange rows)]
      unfold windowMeans
      rw [trueRange_length]
    rw [hfm]
    unfold atrSpec
    by_cases hlt : rows.length < p
    · have h0 : (windowMeans p rows).length = 0 := by
        unfold windowMeans
        rw [List.length_map, List.length_range]
        omega
      rw [if_pos h0, if_pos hlt]
    · have h0 : ¬ (windowMeans p rows).length = 0 := by
        unfold windowMeans
        rw [List.length_map, List.length_range]
        omega
      rw [if_neg h0, if_neg hlt]

/-- Witness for the amended claim C6 at `period = 2` on the two-row series
with `high - low = 2` everywhere: both formulations agree (the value is 2,
not the fallback). -/
theorem C6_atr_amended_witness :
    1 ≤ 2 ∧
    atrResult [((3 : ℚ), 1, 2), (3, 1, 2)] 2 = atrSpec [((3 : ℚ), 1, 2), (3, 1, 2)] 2 :=
  ⟨by norm_num, C6_atr_amended.2 [((3 : ℚ), 1, 2), (3, 1, 2)] 2 (by norm_num)⟩

/-- Claim C7 (confirmed): for non-empty input and any parameters under which
the transforms return, the output has at least one row; when the renko scan
emits no brick, the output is exactly the synthetic brick
`{time: time[0], open: close[0], high: max(closes), low: min(closes),
close: close[-1]}`, and when the range-bar pass emits no bar and leaves no
partial range, the output is exactly one bar from the seeded accumulator
(whose fields all collapse to `(high[0]+low[0])/2`) at `time[0]`. -/
theorem C7_output_nonempty :
    (∀ (brick_size t0 c0 : ℚ) (rest : List (ℚ × ℚ)) (out : List Bar),
       to_renko brick_size ((t0, c0) :: rest) = some out →
         1 ≤ out.length ∧
         ((renkoScan brick_size ⟨(pyRound (c0 / brick_size) : ℚ) * brick_size, 0⟩
             ((t0, c0) :: rest)).2 = [] →
           out = [⟨t0, c0, listMax (((t0, c0) :: rest).map Prod.snd),
                  listMin (((t0, c0) :: rest).map Prod.snd),
                  (((t0, c0) :: rest).map Prod.snd).getLastD 0⟩])) ∧
    (∀ (fuel : ℕ) (range_size t0 h0 l0 : ℚ) (rest : List (ℚ × ℚ × ℚ)) (out : List Bar),
       to_range_bars fuel range_size ((t0, h0, l0) :: rest) = some out →
         1 ≤ out.length ∧
         (∀ s : RBState,
            rbScan range_size fuel ⟨(h0 + l0) / 2, (h0 + l0) / 2, (h0 + l0) / 2, t0⟩
              ((t0, h0, l0) :: rest) = some (s, []) →
            ¬ s.current_low < s.current_high →
            out = [⟨t0, (h0 + l0) / 2, (h0 + l0) / 2, (h0 + l0) / 2, (h0 + l0) / 2⟩])) := by
  constructor
  · intro brick_size t0 c0 rest out hout
    simp only [to_renko] at hout
    by_cases hb : brick_size = 0
    · rw [if_pos hb] at hout
      exact absurd hout (by simp)
    · rw [if_neg hb] at hout
      by_cases hscan : (renkoScan brick_size
          ⟨(pyRound (c0 / brick_size) : ℚ) * brick_size, 0⟩ ((t0, c0) :: rest)).2 = []
      · rw [if_pos hscan] at hout
        have heq := Option.some.inj hout
        exact ⟨by rw [← heq]; norm_num, fun _ => heq.symm⟩
      · rw [if_neg hscan] at hout
        have heq := Option.some.inj hout
        refine ⟨by rw [← heq]; exact List.length_pos.mpr hscan, fun h => absurd h hscan⟩
  · intro fuel range_size t0 h0 l0 rest out hout
    simp only [to_range_bars] at hout
    cases hscan : rbScan range_size fuel
        ⟨(h0 + l0) / 2, (h0 + l0) / 2, (h0 + l0) / 2, t0⟩ ((t0, h0, l0) :: rest) with
    | none =>
      rw [hscan] at hout
      exact absurd hout (by simp)
    | some p =>
      rw [hscan] at hout
      obtain ⟨s, emitted⟩ := p
      dsimp only at hout
      by_cases hlh : s.current_low < s.current_high
      · rw [if_pos hlh] at hout
        have heq := Option.some.inj hout
        constructor
        · rw [← heq, List.length_append]
          simp
        · intro s' hs' hcontra
          obtain ⟨hs1, -⟩ := Prod.mk.injEq _ _ _ _ ▸ Option.some.inj hs'
          exact absurd (hs1 ▸ hlh) hcontra
      · rw [if_neg hlh] at hout
        by_cases hemit : emitted = []
        · subst hemit
          rw [if_pos rfl] at hout
          have heq := Option.some.inj hout
          constructor
          · rw [← heq]
            norm_num
          · intro s' hs' hcontra
            have hnb := rbScan_no_bars range_size fuel ((t0, h0, l0) :: rest)
              ⟨(h0 + l0) / 2, (h0 + l0) / 2, (h0 + l0) / 2, t0⟩ s hscan
            have ho : s.current_open = (h0 + l0) / 2 := hnb.1
            have hhi : (h0 + l0) / 2 ≤ s.current_high := hnb.2.2.1
            have hlo : s.current_low ≤ (h0 + l0) / 2 := hnb.2.2.2
            have hhl : s.current_high ≤ s.current_low := not_lt.mp hlh
            have h4 : s.current_high = (h0 + l0) / 2 := le_antisymm (le_trans hhl hlo) hhi
            have h5 : s.current_low = (h0 + l0) / 2 := le_antisymm hlo (le_trans hhi hhl)
            rw [← heq, ho, h4, h5]
            rw [show ((h0 + l0) / 2 + (h0 + l0) / 2) / 2 = (h0 + l0) / 2 from by ring]
        · rw [if_neg hemit] at hout
          have heq := Option.some.inj hout
          refine ⟨by rw [← heq]; exact List.length_pos.mpr hemit, ?_⟩
          intro s' hs' hcontra
          obtain ⟨-, hs2⟩ := Prod.mk.injEq _ _ _ _ ▸ Option.some.inj hs'
          exact absurd hs2 hemit

/-- Witness for claim C7: `to_renko 1` on the single close `1/2` returns the
synthetic fallback brick, and `to_range_bars 5 1` on the single flat point
`(0, 1, 1)` returns the degenerate seeded bar; both outputs have one row. -/
theorem C7_output_nonempty_witness :
    to_renko 1 [((0 : ℚ), 1/2)] = some [⟨0, 1/2, 1/2, 1/2, 1/2⟩] ∧
    1 ≤ ([(⟨0, 1/2, 1/2, 1/2, 1/2⟩ : Bar)]).length ∧
    to_range_bars 5 1 [((0 : ℚ), 1, 1)] = some [⟨0, 1, 1, 1, 1⟩] ∧
    1 ≤ ([(⟨0, 1, 1, 1, 1⟩ : Bar)]).length := by
  have hr : to_renko 1 [((0 : ℚ), 1/2)] = some [⟨0, 1/2, 1/2, 1/2, 1/2⟩] := by
    norm_num [to_renko, renkoScan, renkoStep, emitBricks, renkoDir, pyInt, pyRound,
      listMax, listMin, abs_of_nonneg]
  have hrb : to_range_bars 5 1 [((0 : ℚ), 1, 1)] = some [⟨0, 1, 1, 1, 1⟩] := by
    norm_num [to_range_bars, rbScan, rbLoop, rbReset, rbNewOpen, rbEmit, bullishBar,
      bearishBar, tieBar]
  exact ⟨hr, (C7_output_nonempty.1 1 0 (1/2) [] _ hr).1, hrb,
    (C7_output_nonempty.2 5 1 0 1 1 [] _ hrb).1⟩

/-- Claim C8 (confirmed): on every run of `to_range_bars` that returns, every
bar except the last satisfies `high - low = range_size` exactly — the
bullish, bearish and tie-break branches all pin the bar height to
`range_size`, and only the final partial (or degenerate seeded) bar, which
is always last, escapes the rule. -/
theorem C8_full_bar_height (fuel : ℕ) (range_size : ℚ) (pts : List (ℚ × ℚ × ℚ))
    (out : List Bar) (hout : to_range_bars fuel range_size pts = some out) :
    ∀ b ∈ out.dropLast, b.hi - b.lo = range_size := by
  cases pts with
  | nil =>
    simp only [to_range_bars] at hout
    have heq := Option.some.inj hout
    intro b hb
    rw [← heq] at hb
    simp at hb
  | cons p rest =>
    obtain ⟨t0, h0, l0⟩ := p
    simp only [to_range_bars] at hout
    cases hscan : rbScan range_size fuel
        ⟨(h0 + l0) / 2, (h0 + l0) / 2, (h0 + l0) / 2, t0⟩ ((t0, h0, l0) :: rest) with
    | none =>
      rw [hscan] at hout
      exact absurd hout (by simp)
    | some q =>
      rw [hscan] at hout
      obtain ⟨s, emitted⟩ := q
      dsimp only at hout
      have hemitted := rbScan_height range_size fuel _ _ _ _ hscan
      by_cases hlh : s.current_low < s.current_high
      · rw [if_pos hlh] at hout
        have heq := Option.some.inj hout
        intro b hb
        rw [← heq, List.dropLast_concat] at hb
        exact hemitted b hb
      · rw [if_neg hlh] at hout
        by_cases hemit : emitted = []
        · rw [if_pos hemit] at hout
          have heq := Option.some.inj hout
          intro b hb
          rw [← heq] at hb
          simp at hb
        · rw [if_neg hemit] at hout
          have heq := Option.some.inj hout
          intro b hb
          rw [← heq] at hb
          exact hemitted b ((List.dropLast_sublist emitted).subset hb)

/-- Witness for claim C8: the two-point run emits one full bullish bar of
height exactly 3 followed by the final partial bar. -/
theorem C8_full_bar_height_witness :
    to_range_bars 10 3 [((0 : ℚ), 13, 12), (1, 16, 31/2)] =
      some [⟨0, 25/2, 16, 13, 16⟩, ⟨1, 16, 16, 31/2, 63/4⟩] ∧
    ∀ b ∈ ([(⟨0, 25/2, 16, 13, 16⟩ : Bar), ⟨1, 16, 16, 31/2, 63/4⟩]).dropLast,
      b.hi - b.lo = 3 := by
  have h : to_range_bars 10 3 [((0 : ℚ), 13, 12), (1, 16, 31/2)] =
      some [⟨0, 25/2, 16, 13, 16⟩, ⟨1, 16, 16, 31/2, 63/4⟩] := by
    norm_num [to_range_bars, rbScan, rbLoop, rbReset, rbNewOpen, rbEmit, bullishBar,
      bearishBar, tieBar]
  exact ⟨h, C8_full_bar_height 10 3 _ _ h⟩

/-- Claim C9 (confirmed): every row returned by `to_renko` is a well-formed
OHLC bar (`low ≤ open ≤ high` and `low ≤ close ≤ high`): regular bricks set
`high = max(open, close)` and `low = min(open, close)`, and the synthetic
fallback brick's high/low are the max/min over all closes, which bound both
`close[0]` and `close[-1]`. -/
theorem C9_renko_ohlc_wellformed (brick_size : ℚ) (pts : List (ℚ × ℚ)) (out : List Bar)
    (hout : to_renko brick_size pts = some out) :
    ∀ b ∈ out, b.lo ≤ b.op ∧ b.op ≤ b.hi ∧ b.lo ≤ b.cl ∧ b.cl ≤ b.hi := by
  cases pts with
  | nil =>
    simp only [to_renko] at hout
    have heq := Option.some.inj hout
    intro b hb
    rw [← heq] at hb
    simp at hb
  | cons p rest =>
    obtain ⟨t0, c0⟩ := p
    simp only [to_renko] at hout
    by_cases hb0 : brick_size = 0
    · rw [if_pos hb0] at hout
      exact absurd hout (by simp)
    · rw [if_neg hb0] at hout
      by_cases hscan : (renkoScan brick_size
          ⟨(pyRound (c0 / brick_size) : ℚ) * brick_size, 0⟩ ((t0, c0) :: rest)).2 = []
      · rw [if_pos hscan] at hout
        have heq := Option.some.inj hout
        intro b hb
        rw [← heq] at hb
        have hb' : b = (⟨t0, c0, listMax (((t0, c0) :: rest).map Prod.snd),
            listMin (((t0, c0) :: rest).map Prod.snd),
            (((t0, c0) :: rest).map Prod.snd).getLastD 0⟩ : Bar) := by
          simpa using hb
        subst hb'
        have hc0 : c0 ∈ ((t0, c0) :: rest).map Prod.snd := by simp
        have hlast : (((t0, c0) :: rest).map Prod.snd).getLastD 0 ∈
            ((t0, c0) :: rest).map Prod.snd := by
          rw [List.map_cons]
          exact getLastD_mem _ _ _
        exact ⟨listMin_le hc0, le_listMax hc0, listMin_le hlast, le_listMax hlast⟩
      · rw [if_neg hscan] at hout
        have heq := Option.some.inj hout
        intro b hb
        rw [← heq] at hb
        exact renkoScan_wf brick_size _ _ b hb

/-- Witness for claim C9 at `brick_size = 2`, closes `100, 103`: the single
emitted brick `100→102` is well formed. -/
theorem C9_renko_ohlc_wellformed_witness :
    to_renko 2 [((0 : ℚ), 100), (1, 103)] = some [⟨1, 100, 102, 100, 102⟩] ∧
    ∀ b ∈ [(⟨1, 100, 102, 100, 102⟩ : Bar)],
      b.lo ≤ b.op ∧ b.op ≤ b.hi ∧ b.lo ≤ b.cl ∧ b.cl ≤ b.hi := by
  have h : to_renko 2 [((0 : ℚ), 100), (1, 103)] = some [⟨1, 100, 102, 100, 102⟩] := by
    norm_num [to_renko, renkoScan, renkoStep, emitBricks, renkoDir, pyInt, pyRound,
      listMax, listMin, List.cons_ne_nil]
  exact ⟨h, C9_renko_ohlc_wellformed 2 _ _ h⟩

/-- Claim C10 (confirmed): a bar emitted by the bullish branch has
`open ≤ low` (the branch condition `high - open ≥ range_size` puts the open
at or below `low = high - range_size`), and a bar emitted by the bearish
branch has `open ≥ high`; consequently range-bar output is not guaranteed to
satisfy the usual OHLC well-formedness `low ≤ open ≤ high`, witnessed by a
complete run whose first bar has `low = 13 > open = 25/2`. -/
theorem C10_branch_open_anomaly :
    (∀ (range_size : ℚ) (s : RBState), range_size ≤ s.current_high - s.current_open →
       (bullishBar range_size s).op ≤ (bullishBar range_size s).lo) ∧
    (∀ (range_size : ℚ) (s : RBState), range_size ≤ s.current_open - s.current_low →
       (bearishBar range_size s).hi ≤ (bearishBar range_size s).op) ∧
    to_range_bars 10 3 [((0 : ℚ), 13, 12), (1, 16, 31/2)] =
      some [⟨0, 25/2, 16, 13, 16⟩, ⟨1, 16, 16, 31/2, 63/4⟩] ∧
    ¬ (⟨0, 25/2, 16, 13, 16⟩ : Bar).lo ≤ (⟨0, 25/2, 16, 13, 16⟩ : Bar).op := by
  refine ⟨?_, ?_, ?_, ?_⟩
  · intro range_size s h
    show s.current_open ≤ s.current_high - range_size
    linarith
  · intro range_size s h
    show s.current_low + range_size ≤ s.current_open
    linarith
  · norm_num [to_range_bars, rbScan, rbLoop, rbReset, rbNewOpen, rbEmit, bullishBar,
      bearishBar, tieBar]
  · norm_num

/-- Witness for claim C10 at `range_size = 3` on concrete accumulator
states satisfying each branch condition. -/
theorem C10_branch_open_anomaly_witness :
    ((3 : ℚ) ≤ (⟨25/2, 16, 12, 0⟩ : RBState).current_high -
        (⟨25/2, 16, 12, 0⟩ : RBState).current_open ∧
     (bullishBar 3 ⟨25/2, 16, 12, 0⟩).op ≤ (bullishBar 3 ⟨25/2, 16, 12, 0⟩).lo) ∧
    ((3 : ℚ) ≤ (⟨16, 20, 12, 0⟩ : RBState).current_open -
        (⟨16, 20, 12, 0⟩ : RBState).current_low ∧
     (bearishBar 3 ⟨16, 20, 12, 0⟩).hi ≤ (bearishBar 3 ⟨16, 20, 12, 0⟩).op) := by
  have h1 : (3 : ℚ) ≤ (⟨25/2, 16, 12, 0⟩ : RBState).current_high -
      (⟨25/2, 16, 12, 0⟩ : RBState).current_open := by norm_num
  have h2 : (3 : ℚ) ≤ (⟨16, 20, 12, 0⟩ : RBState).current_open -
      (⟨16, 20, 12, 0⟩ : RBState).current_low := by norm_num
  exact ⟨⟨h1, C10_branch_open_anomaly.1 3 _ h1⟩, h2, C10_branch_open_anomaly.2.1 3 _ h2⟩
